import Mathlib

/-!
Shallow embedding of the zappr approval check
(`src/server/checks/Approval.js`).

The engine reacts to GitHub webhook events: it counts qualifying approval
comments on a pull request and posts a commit status (`pending`, `success`
or `error`).  All interaction with the outside world (the GitHub API and
the PR-record store) goes through an environment of oracle functions, each
of which may fail; every external call made by the engine is recorded in a
trace, so that theorems can speak both about the results and about which
calls were (or were not) issued.  Asynchronous fan-out (`Promise.all` over
authors and over organisations) is linearised in source order.
-/

namespace Zappr

/-- An error thrown by an external call (JS `Error`); only its `message`
is observable to the engine (used as the description of error statuses). -/
structure Err where
  message : String
deriving DecidableEq, Repr

/-- Payload of a commit status (`{state, description, context}`). -/
structure StatusPayload where
  state : String
  description : String
  context : String
deriving DecidableEq, Repr

/-- The fixed status context: `const context = 'zappr'`. -/
def zapprContext : String := "zappr"

/-- A comment author (`comment.user`). -/
structure CommentUser where
  login : String
deriving DecidableEq, Repr

/-- An issue comment: `comment.user.login` and `comment.body`. -/
structure Comment where
  user : CommentUser
  body : String
deriving DecidableEq, Repr

/-- A repository owner (`repository.owner`). -/
structure RepoOwner where
  login : String
deriving DecidableEq, Repr

/-- The repository part of a hook payload. -/
structure Repository where
  name : String
  owner : RepoOwner
  full_name : String
deriving DecidableEq, Repr

/-- Embeds `config.approvals.from`: optional membership restriction.  In the JS
object, `users` and `orgs` may be absent (`undefined`), modelled as
`none`; `collaborators` is used as a boolean. -/
structure FromConfig where
  users : Option (List String)
  collaborators : Bool
  orgs : Option (List String)
deriving DecidableEq, Repr

/-- The approval check configuration (`config.approvals`, which is also
the shape `countApprovals` receives): `minimum`, `pattern`, optional
`ignore` list and optional `from` restriction. -/
structure CheckConfig where
  minimum : Int
  pattern : String
  ignore : Option (List String)
  «from» : Option FromConfig

/-- The full config object passed to `execute` (only `config.approvals`
is read). -/
structure Config where
  approvals : CheckConfig

/-- Embeds `pull_request.head`. -/
structure Head where
  sha : String
deriving DecidableEq, Repr

/-- Embeds `pull_request.user` (the PR opener). -/
structure PRUser where
  login : String
deriving DecidableEq, Repr

/-- A pull request as read from the hook payload or from
`github.getPullRequest`. -/
structure PullRequest where
  state : String
  head : Head
  user : PRUser
deriving DecidableEq, Repr

/-- The `issue` part of an issue-comment hook payload. -/
structure Issue where
  number : Nat
deriving DecidableEq, Repr

/-- A webhook payload as destructured by `execute`:
`{action, repository, pull_request, number, issue}`.  `action` and the two
event-specific parts may be absent.  `number` accompanies pull-request
events; for issue-comment events it is absent in JS and never read, so a
default value is carried here. -/
structure HookPayload where
  action : Option String
  repository : Repository
  pull_request : Option PullRequest
  number : Nat
  issue : Option Issue

/-- A persisted PR record (`dbPR`); `last_push` is an opaque timestamp. -/
structure DbPR where
  last_push : String
deriving DecidableEq, Repr

/-- One external call made by the engine, as recorded in the trace.
Authentication tokens are omitted: they carry no behaviour. -/
inductive Call where
  | setCommitStatus (user repo sha : String) (payload : StatusPayload)
  | onGet (repoId number : Nat)
  | onCreatePullRequest (repoId number : Nat)
  | onAddCommit (repoId number : Nat)
  | getComments (user repo : String) (number : Nat) (since : String)
  | getPullRequest (user repo : String) (number : Nat)
  | isCollaborator (owner repo username : String)
  | isMemberOfOrg (org username : String)
deriving DecidableEq, Repr

/-- The environment of external oracles: the GitHub API methods and the
PR-record store (`pullRequestHandler`) used by `Approval`, each of which
may fail with an `Err`; plus `newRegExp` standing for the JS runtime's
`new RegExp(pattern)` (which either throws on a malformed pattern or
yields a test predicate) and `formatDate` from `common/debug` (pure
formatting, not part of `src/`, behaviourally opaque here). -/
structure Env where
  setCommitStatus : String → String → String → StatusPayload → Except Err Unit
  onGet : Nat → Nat → Except Err (Option DbPR)
  onCreatePullRequest : Nat → Nat → Except Err DbPR
  onAddCommit : Nat → Nat → Except Err Unit
  getComments : String → String → Nat → String → Except Err (List Comment)
  getPullRequest : String → String → Nat → Except Err (Option PullRequest)
  isCollaborator : String → String → String → Except Err Bool
  isMemberOfOrg : String → String → Except Err Bool
  newRegExp : String → Except Err (String → Bool)
  formatDate : String → String

deriving instance DecidableEq for Except

/-- Result of one step of engine work: the external calls it made, and
either a value or the error it threw. -/
abbrev StepResult (α : Type) := List Call × Except Err α

/-- Embeds `Approval.generateStatusMessage(actual, needed)`. -/
def generateStatusMessage (actual needed : Int) : String :=
  if actual < needed then
    "This PR needs " ++ toString (needed - actual) ++ " more approvals (" ++
      toString actual ++ "/" ++ toString needed ++ " given)."
  else
    "This PR has " ++ toString actual ++ "/" ++ toString needed ++
      " approvals since the last commit."

/-- The pattern-matching filter of `countApprovals`: keep comments whose
trimmed body matches `new RegExp(pattern)`.  The regex is compiled per
comment (as in the source, inside the filter callback), so a malformed
pattern throws as soon as one comment is tested. -/
def filterMatching (env : Env) (pattern : String) :
    List Comment → Except Err (List Comment)
  | [] => .ok []
  | comment :: rest =>
    match env.newRegExp pattern with
    | .error e => .error e
    | .ok test =>
      match filterMatching env pattern rest with
      | .error e => .error e
      | .ok rest' =>
        .ok (if test comment.body.trim then comment :: rest' else rest')

/-- The deduplication filter of `countApprovals`:
`filter((c1, i, cmts) => i === cmts.findIndex(c2 => c1.user.login === c2.user.login))`,
i.e. a comment is kept iff its index is the first index carrying its
author's login. -/
def dedupByAuthor (cmts : List Comment) : List Comment :=
  (cmts.enum.filter fun p =>
    cmts.findIdx (fun c2 => p.2.user.login == c2.user.login) == p.1).map Prod.snd

/-- JS `Promise.all`, linearised: collect all results, failing with the
first rejection in list order. -/
def sequenceResults : List (Except Err Bool) → Except Err (List Bool)
  | [] => .ok []
  | r :: rest =>
    match r with
    | .error e => .error e
    | .ok b =>
      match sequenceResults rest with
      | .error e => .error e
      | .ok bs => .ok (b :: bs)

/-- The per-author membership check in the `config.from` branch of
`countApprovals`: listed explicitly in `users`, else (if `collaborators`)
a collaborator, else (if `orgs` is present) a member of at least one of
the orgs (all org queries are issued, `Promise.all`-style).  Returns
whether the author's approval counts. -/
def checkAuthor (env : Env) (repository : Repository) (fromRule : FromConfig)
    (username : String) : StepResult Bool :=
  if (fromRule.users.getD []).contains username then
    ([], .ok true)
  else
    let collabStep : StepResult Bool :=
      if fromRule.collaborators then
        ([Call.isCollaborator repository.owner.login repository.name username],
          env.isCollaborator repository.owner.login repository.name username)
      else ([], .ok false)
    match collabStep with
    | (calls, .error e) => (calls, .error e)
    | (calls, .ok isCollab) =>
      if isCollab then (calls, .ok true)
      else
        match fromRule.orgs with
        | none => (calls, .ok false)
        | some orgs =>
          let orgCallList := orgs.map fun o => Call.isMemberOfOrg o username
          match sequenceResults (orgs.map fun o => env.isMemberOfOrg o username) with
          | .error e => (calls ++ orgCallList, .error e)
          | .ok results => (calls ++ orgCallList, .ok (results.contains true))

/-- The membership pass of `countApprovals` over the deduplicated list:
map each comment to whether its author passes `checkAuthor`, and count
the passing ones (`filtered.filter(c => !!c).length`). -/
def countMembers (env : Env) (repository : Repository) (fromRule : FromConfig) :
    List Comment → StepResult Nat
  | [] => ([], .ok 0)
  | comment :: rest =>
    match checkAuthor env repository fromRule comment.user.login with
    | (calls, .error e) => (calls, .error e)
    | (calls, .ok passed) =>
      match countMembers env repository fromRule rest with
      | (calls', .error e) => (calls ++ calls', .error e)
      | (calls', .ok n) => (calls ++ calls', .ok (if passed then n + 1 else n))

/-- Embeds `Approval.countApprovals(github, repository, comments, config, token)`:
drop ignored users, keep pattern-matching comments, deduplicate by
author; if nothing is left return 0; otherwise apply the optional
`config.from` membership restriction. -/
def countApprovals (env : Env) (repository : Repository)
    (comments : List Comment) (config : CheckConfig) : StepResult Nat :=
  let notIgnored := comments.filter fun comment =>
    !((config.ignore.getD []).contains comment.user.login)
  match filterMatching env config.pattern notIgnored with
  | .error e => ([], .error e)
  | .ok matched =>
    let filtered := dedupByAuthor matched
    if filtered.length = 0 then ([], .ok 0)
    else
      match config.«from» with
      | some fromRule => countMembers env repository fromRule filtered
      | none => ([], .ok filtered.length)

/-- Result of the `try` body of `execute`: the calls made, and either
normal completion or the thrown error together with the value of the
mutable `sha` variable at the time of the throw (the target of the
`catch` block's error status). -/
abbrev BodyResult := List Call × Except (String × Err) Unit

/-- Sequencing inside the `try` body: run one external step; if it throws,
abort with the current `sha`; otherwise continue, accumulating the call
trace in order. -/
def withSha {α : Type} (sha : String) (step : StepResult α)
    (k : α → BodyResult) : BodyResult :=
  match step with
  | (calls, .error e) => (calls, .error (sha, e))
  | (calls, .ok a) =>
    let r := k a
    (calls ++ r.1, r.2)

/-- Normal completion of the `try` body. -/
def bodyDone : BodyResult := ([], .ok ())

/-- The initial generic pending status
(`{state: 'pending', description: 'Approval validation in progress.', context}`). -/
def pendingPayload : StatusPayload :=
  { state := "pending", description := "Approval validation in progress.", context := zapprContext }

/-- The `action === 'opened' || action === 'reopened'` branch of
`execute` (an open pull request was (re)opened): set the generic pending
status, fetch or create the PR record, then either stop with a `0/minimum`
pending status (freshly opened with a positive quorum) or count approvals
since the record's last push and report the outcome. -/
def executeOpenedReopened (env : Env) (config : Config)
    (pull_request : PullRequest) (hookPayload : HookPayload)
    (dbRepoId : Nat) : BodyResult :=
  let repository := hookPayload.repository
  let repo := repository.name
  let user := repository.owner.login
  let minimum := config.approvals.minimum
  let number := hookPayload.number
  let sha := pull_request.head.sha
  withSha sha ([Call.setCommitStatus user repo pull_request.head.sha pendingPayload],
      env.setCommitStatus user repo pull_request.head.sha pendingPayload) fun _ =>
  withSha sha ([Call.onGet dbRepoId number], env.onGet dbRepoId number) fun dbPROpt =>
  withSha sha (match dbPROpt with
      | some dbPR => ([], .ok dbPR)
      | none => ([Call.onCreatePullRequest dbRepoId number],
          env.onCreatePullRequest dbRepoId number)) fun dbPR =>
  if hookPayload.action = some "opened" ∧ minimum > 0 then
    withSha sha
      ([Call.setCommitStatus user repo pull_request.head.sha
          { state := "pending", description := generateStatusMessage 0 minimum,
            context := zapprContext }],
        env.setCommitStatus user repo pull_request.head.sha
          { state := "pending", description := generateStatusMessage 0 minimum,
            context := zapprContext }) fun _ =>
    bodyDone
  else
    let opener := pull_request.user.login
    withSha sha ([Call.getComments user repo number (env.formatDate dbPR.last_push)],
        env.getComments user repo number (env.formatDate dbPR.last_push)) fun comments =>
    let countConfig := { config.approvals with ignore := some [opener] }
    withSha sha (countApprovals env repository comments countConfig) fun approvals =>
    let state := if (approvals : Int) < minimum then "pending" else "success"
    withSha sha ([Call.setCommitStatus user repo pull_request.head.sha
        { state := state, description := generateStatusMessage approvals minimum,
          context := zapprContext }],
      env.setCommitStatus user repo pull_request.head.sha
        { state := state, description := generateStatusMessage approvals minimum,
          context := zapprContext }) fun _ =>
    bodyDone

/-- The `action === 'synchronize'` branch of `execute`: record the new
commit in the PR store, then reset the status to pending with the
`0/minimum` message.  The mutable `sha` is never assigned here. -/
def executeSynchronize (env : Env) (config : Config)
    (pull_request : PullRequest) (hookPayload : HookPayload)
    (dbRepoId : Nat) : BodyResult :=
  let repository := hookPayload.repository
  let repo := repository.name
  let user := repository.owner.login
  let minimum := config.approvals.minimum
  let number := hookPayload.number
  withSha "" ([Call.onAddCommit dbRepoId number], env.onAddCommit dbRepoId number) fun _ =>
  withSha "" ([Call.setCommitStatus user repo pull_request.head.sha
      { state := "pending", description := generateStatusMessage 0 minimum,
        context := zapprContext }],
    env.setCommitStatus user repo pull_request.head.sha
      { state := "pending", description := generateStatusMessage 0 minimum,
        context := zapprContext }) fun _ =>
  bodyDone

/-- The `else if (!!issue)` branch of `execute`: look up the pull request
behind the issue; if there is none or it is not open, do nothing.
Otherwise set the generic pending status, fetch or create the PR record,
count approvals since its last push and report the outcome. -/
def executeIssueComment (env : Env) (config : Config) (issue : Issue)
    (hookPayload : HookPayload) (dbRepoId : Nat) : BodyResult :=
  let repository := hookPayload.repository
  let repo := repository.name
  let user := repository.owner.login
  let minimum := config.approvals.minimum
  withSha "" ([Call.getPullRequest user repo issue.number],
      env.getPullRequest user repo issue.number) fun prOpt =>
  match prOpt with
  | none => bodyDone
  | some pr =>
    if pr.state ≠ "open" then bodyDone
    else
      let sha := pr.head.sha
      withSha sha ([Call.setCommitStatus user repo pr.head.sha pendingPayload],
          env.setCommitStatus user repo pr.head.sha pendingPayload) fun _ =>
      withSha sha ([Call.onGet dbRepoId issue.number], env.onGet dbRepoId issue.number) fun dbPROpt =>
      withSha sha (match dbPROpt with
          | some dbPR => ([], .ok dbPR)
          | none => ([Call.onCreatePullRequest dbRepoId issue.number],
              env.onCreatePullRequest dbRepoId issue.number)) fun dbPR =>
      let opener := pr.user.login
      let countConfig := { config.approvals with ignore := some [opener] }
      withSha sha ([Call.getComments user repo issue.number (env.formatDate dbPR.last_push)],
          env.getComments user repo issue.number (env.formatDate dbPR.last_push)) fun comments =>
      withSha sha (countApprovals env repository comments countConfig) fun approvals =>
      let state := if (approvals : Int) < minimum then "pending" else "success"
      withSha sha ([Call.setCommitStatus user repo pr.head.sha
          { state := state, description := generateStatusMessage approvals minimum,
            context := zapprContext }],
        env.setCommitStatus user repo pr.head.sha
          { state := state, description := generateStatusMessage approvals minimum,
            context := zapprContext }) fun _ =>
      bodyDone

/-- The `try` body of `Approval.execute`: dispatch on the payload shape.
`if (!!pull_request && pull_request.state === 'open')` selects the
pull-request branches (further keyed on `action`); otherwise
`else if (!!issue)` selects the issue-comment branch; anything else is a
no-op. -/
def executeBody (env : Env) (config : Config) (hookPayload : HookPayload)
    (dbRepoId : Nat) : BodyResult :=
  match hookPayload.pull_request with
  | some pull_request =>
    if pull_request.state = "open" then
      if hookPayload.action = some "opened" ∨ hookPayload.action = some "reopened" then
        executeOpenedReopened env config pull_request hookPayload dbRepoId
      else if hookPayload.action = some "synchronize" then
        executeSynchronize env config pull_request hookPayload dbRepoId
      else bodyDone
    else
      match hookPayload.issue with
      | some issue => executeIssueComment env config issue hookPayload dbRepoId
      | none => bodyDone
  | none =>
    match hookPayload.issue with
    | some issue => executeIssueComment env config issue hookPayload dbRepoId
    | none => bodyDone

/-- Embeds `Approval.execute(github, config, hookPayload, token, dbRepoId,
pullRequestHandler)`, observed through its trace of external calls: run
the `try` body; on a thrown error, the `catch` block posts one status of
state `error` whose description is the error's message, targeting the
current value of the mutable `sha` variable. -/
def execute (env : Env) (config : Config) (hookPayload : HookPayload)
    (dbRepoId : Nat) : List Call :=
  match executeBody env config hookPayload dbRepoId with
  | (calls, .ok _) => calls
  | (calls, .error (sha, e)) =>
    calls ++ [Call.setCommitStatus hookPayload.repository.owner.login
      hookPayload.repository.name sha
      { state := "error", context := zapprContext, description := e.message }]

/-! ### Deduplication lemmas

`dedupByAuthor` is stated exactly as in the source, as an index-based
filter.  `dedupGo` is the equivalent structural recursion over the list,
carrying the set of logins already seen; the bridge lemma
`dedupByAuthor_eq_dedupGo` connects the two, and all further reasoning
uses `dedupGo`. -/

/-- Structural version of `dedupByAuthor`: keep a comment iff its
author's login has not been seen before. -/
def dedupGo (seen : List String) : List Comment → List Comment
  | [] => []
  | c :: rest =>
    if c.user.login ∈ seen then dedupGo seen rest
    else c :: dedupGo (c.user.login :: seen) rest

lemma findIdx_login_append_fresh (pre : List Comment) (c : Comment) (rest : List Comment)
    (h : ∀ a ∈ pre, a.user.login ≠ c.user.login) :
    List.findIdx (fun c2 => c.user.login == c2.user.login) (pre ++ c :: rest) = pre.length := by
  induction pre with
  | nil => simp [List.findIdx_cons]
  | cons a pre ih =>
    have ha : a.user.login ≠ c.user.login := h a (by simp)
    have : (c.user.login == a.user.login) = false := by
      simp only [beq_eq_false_iff_ne, ne_eq]
      exact fun hx => ha hx.symm
    simp only [List.cons_append, List.findIdx_cons, this, cond_false, List.length_cons]
    rw [ih fun a ha => h a (by simp [ha])]

lemma findIdx_login_append_seen (pre : List Comment) (l : List Comment) (login : String)
    (h : ∃ a ∈ pre, a.user.login = login) :
    List.findIdx (fun c2 => login == c2.user.login) (pre ++ l) < pre.length := by
  induction pre with
  | nil => simp at h
  | cons a pre ih =>
    by_cases ha : a.user.login = login
    · simp [List.findIdx_cons, ha]
    · obtain ⟨b, hb, hbl⟩ := h
      rcases List.mem_cons.mp hb with rfl | hb'
      · exact absurd hbl ha
      · have : (login == a.user.login) = false := by
          simp only [beq_eq_false_iff_ne, ne_eq]
          exact fun hx => ha hx.symm
        simp only [List.cons_append, List.findIdx_cons, this, cond_false, List.length_cons]
        exact Nat.succ_lt_succ (ih ⟨b, hb', hbl⟩)

/-- The seen-set of `dedupGo` only matters up to membership. -/
lemma dedupGo_congr (l : List Comment) : ∀ (s₁ s₂ : List String),
    (∀ x, x ∈ s₁ ↔ x ∈ s₂) → dedupGo s₁ l = dedupGo s₂ l := by
  induction l with
  | nil => intro s₁ s₂ _; rfl
  | cons c rest ih =>
    intro s₁ s₂ h
    simp only [dedupGo]
    by_cases hc : c.user.login ∈ s₁
    · rw [if_pos hc, if_pos ((h _).mp hc)]
      exact ih s₁ s₂ h
    · rw [if_neg hc, if_neg (fun hx => hc ((h _).mpr hx))]
      exact congrArg (c :: ·) (ih _ _ fun x => by
        simp only [List.mem_cons]
        exact or_congr Iff.rfl (h x))

lemma dedupGo_enumFrom (rest : List Comment) : ∀ (pre : List Comment),
    ((List.enumFrom pre.length rest).filter fun p =>
      List.findIdx (fun c2 => p.2.user.login == c2.user.login) (pre ++ rest) == p.1).map Prod.snd
    = dedupGo (pre.map fun c => c.user.login) rest := by
  induction rest with
  | nil => intro pre; rfl
  | cons c rest ih =>
    intro pre
    have hfull : pre ++ c :: rest = (pre ++ [c]) ++ rest := by simp
    have hlen : (pre ++ [c]).length = pre.length + 1 := by simp
    by_cases hmem : c.user.login ∈ pre.map fun a => a.user.login
    · obtain ⟨a, ha, hal⟩ := List.mem_map.mp hmem
      have hlt := findIdx_login_append_seen pre (c :: rest) c.user.login ⟨a, ha, hal⟩
      have hcond : (List.findIdx (fun c2 => c.user.login == c2.user.login)
          (pre ++ c :: rest) == pre.length) = false := by
        simp only [beq_eq_false_iff_ne]
        exact Nat.ne_of_lt hlt
      show ((((pre.length, c) :: List.enumFrom (pre.length + 1) rest).filter fun p =>
          List.findIdx (fun c2 => p.2.user.login == c2.user.login) (pre ++ c :: rest) == p.1).map
            Prod.snd) = dedupGo (pre.map fun a => a.user.login) (c :: rest)
      rw [List.filter_cons_of_neg (by simpa using hcond)]
      have := ih (pre ++ [c])
      rw [hlen, ← hfull] at this
      rw [this]
      simp only [dedupGo, if_pos hmem]
      refine dedupGo_congr rest _ _ fun x => ?_
      simp only [List.map_append, List.map_cons, List.map_nil, List.mem_append,
        List.mem_cons, List.mem_singleton]
      constructor
      · rintro (hx | hx)
        · exact hx
        · simp only [List.not_mem_nil, or_false] at hx
          exact hx ▸ hmem
      · exact fun hx => Or.inl hx
    · have hfresh : ∀ a ∈ pre, a.user.login ≠ c.user.login := by
        intro a ha hal
        exact hmem (List.mem_map.mpr ⟨a, ha, hal⟩)
      have heq := findIdx_login_append_fresh pre c rest hfresh
      have hcond : (List.findIdx (fun c2 => c.user.login == c2.user.login)
          (pre ++ c :: rest) == pre.length) = true := by
        simp [heq]
      show ((((pre.length, c) :: List.enumFrom (pre.length + 1) rest).filter fun p =>
          List.findIdx (fun c2 => p.2.user.login == c2.user.login) (pre ++ c :: rest) == p.1).map
            Prod.snd) = dedupGo (pre.map fun a => a.user.login) (c :: rest)
      rw [List.filter_cons_of_pos (by simpa using hcond)]
      simp only [List.map_cons]
      have := ih (pre ++ [c])
      rw [hlen, ← hfull] at this
      rw [this]
      simp only [dedupGo, if_neg hmem]
      refine congrArg (c :: ·) (dedupGo_congr rest _ _ fun x => ?_)
      simp only [List.map_append, List.map_cons, List.map_nil, List.mem_append,
        List.mem_cons, List.mem_singleton, List.not_mem_nil, or_false]
      exact Or.comm

/-- Bridge: the source's index-based duplicate filter equals the
structural recursion with an empty seen-set. -/
lemma dedupByAuthor_eq_dedupGo (cmts : List Comment) :
    dedupByAuthor cmts = dedupGo [] cmts := by
  have := dedupGo_enumFrom cmts []
  simpa [dedupByAuthor, List.enum_eq_enumFrom] using this

/-- A comment whose author was already seen is dropped wherever it
occurs. -/
lemma dedupGo_drop_seen (c : Comment) : ∀ (B : List Comment) (C : List Comment)
    (seen : List String), c.user.login ∈ seen →
    dedupGo seen (B ++ c :: C) = dedupGo seen (B ++ C) := by
  intro B
  induction B with
  | nil =>
    intro C seen hc
    simp [dedupGo, hc]
  | cons b B ih =>
    intro C seen hc
    simp only [List.cons_append, dedupGo, List.append_eq]
    by_cases hb : b.user.login ∈ seen
    · rw [if_pos hb, if_pos hb, ih C seen hc]
    · rw [if_neg hb, if_neg hb, ih C _ (List.mem_cons_of_mem _ hc)]

/-- Duplicating a comment that already occurs earlier in the list leaves
the deduplicated list unchanged. -/
lemma dedupGo_duplicate (c : Comment) (B C : List Comment) : ∀ (A : List Comment)
    (seen : List String),
    dedupGo seen (A ++ c :: B ++ c :: C) = dedupGo seen (A ++ c :: (B ++ C)) := by
  intro A
  induction A with
  | nil =>
    intro seen
    simp only [List.nil_append, dedupGo]
    by_cases hc : c.user.login ∈ seen
    · rw [if_pos hc, if_pos hc]
      exact dedupGo_drop_seen c B C seen hc
    · rw [if_neg hc, if_neg hc]
      exact congrArg (c :: ·) (dedupGo_drop_seen c B C _ (List.mem_cons_self _ _))
  | cons a A ih =>
    intro seen
    simp only [List.cons_append, dedupGo, List.append_eq]
    by_cases ha : a.user.login ∈ seen
    · rw [if_pos ha, if_pos ha, ih seen]
    · rw [if_neg ha, if_neg ha, ih _]

/-- Duplicating a comment already present leaves `dedupByAuthor`
unchanged. -/
lemma dedupByAuthor_duplicate (c : Comment) (A B C : List Comment) :
    dedupByAuthor (A ++ c :: B ++ c :: C) = dedupByAuthor (A ++ c :: (B ++ C)) := by
  rw [dedupByAuthor_eq_dedupGo, dedupByAuthor_eq_dedupGo]
  exact dedupGo_duplicate c B C A []

/-- The authors surviving `dedupGo` avoid the seen-set. -/
lemma dedupGo_not_seen : ∀ (l : List Comment) (seen : List String) (x : String),
    x ∈ (dedupGo seen l).map (fun c => c.user.login) → x ∉ seen := by
  intro l
  induction l with
  | nil => intro seen x hx; simp [dedupGo] at hx
  | cons c rest ih =>
    intro seen x hx
    simp only [dedupGo] at hx
    by_cases hc : c.user.login ∈ seen
    · rw [if_pos hc] at hx
      exact ih seen x hx
    · rw [if_neg hc] at hx
      simp only [List.map_cons, List.mem_cons] at hx
      rcases hx with rfl | hx
      · exact hc
      · exact fun hs => ih _ x hx (List.mem_cons_of_mem _ hs)

/-- The surviving authors are pairwise distinct. -/
lemma dedupGo_nodup_logins : ∀ (l : List Comment) (seen : List String),
    ((dedupGo seen l).map (fun c => c.user.login)).Nodup := by
  intro l
  induction l with
  | nil => intro seen; simp [dedupGo]
  | cons c rest ih =>
    intro seen
    simp only [dedupGo]
    by_cases hc : c.user.login ∈ seen
    · rw [if_pos hc]; exact ih seen
    · rw [if_neg hc]
      simp only [List.map_cons, List.nodup_cons]
      exact ⟨fun hx => dedupGo_not_seen rest _ _ hx (List.mem_cons_self _ _), ih _⟩

/-- The set of surviving authors is the set of authors minus the
seen-set. -/
lemma dedupGo_toFinset : ∀ (l : List Comment) (seen : List String),
    ((dedupGo seen l).map (fun c => c.user.login)).toFinset =
      (l.map fun c => c.user.login).toFinset \ seen.toFinset := by
  intro l
  induction l with
  | nil => intro seen; simp [dedupGo]
  | cons c rest ih =>
    intro seen
    simp only [dedupGo]
    by_cases hc : c.user.login ∈ seen
    · rw [if_pos hc, ih seen]
      ext x
      simp only [Finset.mem_sdiff, List.mem_toFinset, List.map_cons, List.mem_cons]
      constructor
      · rintro ⟨hx, hns⟩
        exact ⟨Or.inr hx, hns⟩
      · rintro ⟨hx, hns⟩
        rcases hx with rfl | hx
        · exact absurd hc hns
        · exact ⟨hx, hns⟩
    · rw [if_neg hc]
      simp only [List.map_cons, List.toFinset_cons, ih]
      ext x
      simp only [Finset.mem_insert, Finset.mem_sdiff, List.mem_toFinset, List.mem_cons]
      constructor
      · rintro (rfl | ⟨hx, hns⟩)
        · exact ⟨Or.inl rfl, hc⟩
        · exact ⟨Or.inr hx, fun h => hns (Or.inr h)⟩
      · rintro ⟨hor, hns⟩
        rcases hor with rfl | hx
        · exact Or.inl rfl
        · by_cases hxc : x = c.user.login
          · exact Or.inl hxc
          · exact Or.inr ⟨hx, fun h => h.elim hxc hns⟩

/-! ### Counting lemmas -/

/-- With a well-formed pattern, the pattern filter is an ordinary filter
on the trimmed body. -/
lemma filterMatching_ok {env : Env} {pattern : String} {test : String → Bool}
    (h : env.newRegExp pattern = .ok test) :
    ∀ l : List Comment, filterMatching env pattern l = .ok (l.filter fun c => test c.body.trim) := by
  intro l
  induction l with
  | nil => rfl
  | cons c rest ih =>
    simp only [filterMatching, h, ih]
    cases hcb : test c.body.trim <;> simp [List.filter_cons, hcb]

/-- The number of distinct authors surviving deduplication. -/
lemma dedupByAuthor_length (l : List Comment) :
    (dedupByAuthor l).length = (l.map fun c => c.user.login).toFinset.card := by
  rw [dedupByAuthor_eq_dedupGo]
  have hn := dedupGo_nodup_logins l []
  have hf := dedupGo_toFinset l []
  calc (dedupGo [] l).length
      = ((dedupGo [] l).map fun c => c.user.login).length := by rw [List.length_map]
    _ = ((dedupGo [] l).map fun c => c.user.login).toFinset.card :=
        (List.toFinset_card_of_nodup hn).symm
    _ = (l.map fun c => c.user.login).toFinset.card := by
        rw [hf]; simp

/-- Spec-side membership predicate, stated from the configuration and
pure oracle functions: an author's approval counts iff they are listed in
`from.users`, or `from.collaborators` is set and they are a collaborator,
or they belong to at least one org of `from.orgs`. -/
def passAuthor (fromRule : FromConfig) (collabF : String → Bool)
    (orgF : String → String → Bool) (username : String) : Bool :=
  (fromRule.users.getD []).contains username ||
    (fromRule.collaborators && collabF username) ||
    ((fromRule.orgs.getD []).any fun o => orgF o username)

lemma sequenceResults_pure (f : String → Bool) :
    ∀ orgs : List String,
      sequenceResults (orgs.map fun o => .ok (f o)) = .ok (orgs.map f) := by
  intro orgs
  induction orgs with
  | nil => rfl
  | cons o rest ih => simp [sequenceResults, ih]

lemma sequenceResults_ok {env : Env} {orgF : String → String → Bool}
    (ho : ∀ o u, env.isMemberOfOrg o u = .ok (orgF o u)) (u : String) :
    ∀ orgs : List String,
      sequenceResults (orgs.map fun o => env.isMemberOfOrg o u) =
        .ok (orgs.map fun o => orgF o u) := by
  intro orgs
  have hmap : (orgs.map fun o => env.isMemberOfOrg o u) =
      orgs.map fun o => .ok (orgF o u) :=
    List.map_congr_left fun o _ => ho o u
  rw [hmap, sequenceResults_pure]

lemma contains_true_eq_any (l : List String) (f : String → Bool) :
    (l.map f).contains true = l.any f := by
  induction l with
  | nil => rfl
  | cons x rest ih =>
    simp only [List.map_cons, List.contains_cons, List.any_cons, ← ih]
    cases f x <;> simp

lemma decide_exists_eq_any (orgs : List String) (f : String → Bool) :
    decide (∃ a ∈ orgs, f a = true) = orgs.any f := by
  cases ha : orgs.any f with
  | true => exact decide_eq_true (List.any_eq_true.mp ha)
  | false =>
    refine decide_eq_false fun h => ?_
    rw [← List.any_eq_true] at h
    rw [h] at ha
    exact Bool.noConfusion ha

/-- With pure membership oracles, `checkAuthor` decides exactly
`passAuthor`. -/
lemma checkAuthor_ok {env : Env} {repository : Repository} {fromRule : FromConfig}
    {collabF : String → Bool} {orgF : String → String → Bool}
    (hc : ∀ u, env.isCollaborator repository.owner.login repository.name u = .ok (collabF u))
    (ho : ∀ o u, env.isMemberOfOrg o u = .ok (orgF o u)) (u : String) :
    (checkAuthor env repository fromRule u).2 = .ok (passAuthor fromRule collabF orgF u) := by
  unfold checkAuthor passAuthor
  by_cases hu : u ∈ fromRule.users.getD []
  · simp [hu]
  · cases hcol : fromRule.collaborators with
    | true =>
      cases hcf : collabF u with
      | true => simp [hu, hc u, hcf]
      | false =>
        cases horgs : fromRule.orgs with
        | none => simp [hu, hc u, hcf, horgs]
        | some orgs =>
          simp [hu, hc u, hcf, horgs, sequenceResults_ok ho u orgs,
            contains_true_eq_any, decide_exists_eq_any]
    | false =>
      cases horgs : fromRule.orgs with
      | none => simp [hu, horgs]
      | some orgs =>
        simp [hu, horgs, sequenceResults_ok ho u orgs, contains_true_eq_any,
          decide_exists_eq_any]

/-- With pure membership oracles, the membership pass counts the
comments whose author passes. -/
lemma countMembers_ok {env : Env} {repository : Repository} {fromRule : FromConfig}
    {collabF : String → Bool} {orgF : String → String → Bool}
    (hc : ∀ u, env.isCollaborator repository.owner.login repository.name u = .ok (collabF u))
    (ho : ∀ o u, env.isMemberOfOrg o u = .ok (orgF o u)) :
    ∀ l : List Comment,
      (countMembers env repository fromRule l).2 =
        .ok (l.countP fun c => passAuthor fromRule collabF orgF c.user.login) := by
  intro l
  induction l with
  | nil => rfl
  | cons c rest ih =>
    have hca := @checkAuthor_ok env repository fromRule collabF orgF hc ho c.user.login
    rcases hch : checkAuthor env repository fromRule c.user.login with ⟨calls, r⟩
    rw [hch] at hca
    simp only at hca
    subst hca
    rcases hcm : countMembers env repository fromRule rest with ⟨calls', r'⟩
    rw [hcm] at ih
    simp only at ih
    subst ih
    simp only [countMembers, hch, hcm, List.countP_cons]
    cases hp : passAuthor fromRule collabF orgF c.user.login <;>
      simp [hp, Nat.add_comm]

/-- Counting a per-author predicate over the deduplicated list equals
counting the distinct authors satisfying it. -/
lemma countP_dedupByAuthor (l : List Comment) (p : String → Bool) :
    (dedupByAuthor l).countP (fun c => p c.user.login) =
      ((l.map fun c => c.user.login).toFinset.filter fun u => p u = true).card := by
  have hmap : (dedupByAuthor l).countP (fun c => p c.user.login) =
      ((dedupByAuthor l).map fun c => c.user.login).countP p := by
    rw [List.countP_map]; rfl
  rw [hmap, List.countP_eq_length_filter]
  have hnd : (((dedupByAuthor l).map fun c => c.user.login).filter p).Nodup := by
    rw [dedupByAuthor_eq_dedupGo]
    exact (dedupGo_nodup_logins l []).filter p
  rw [← List.toFinset_card_of_nodup hnd, List.toFinset_filter]
  congr 1
  rw [dedupByAuthor_eq_dedupGo, dedupGo_toFinset l []]
  simp

/-- The ignore-filter drops a comment by an ignored author wherever it
occurs, leaving `countApprovals` untouched. -/
lemma countApprovals_ignored_comment (env : Env) (repository : Repository)
    (config : CheckConfig) (l₁ l₂ : List Comment) (c : Comment)
    (hig : c.user.login ∈ config.ignore.getD []) :
    countApprovals env repository (l₁ ++ c :: l₂) config =
      countApprovals env repository (l₁ ++ l₂) config := by
  unfold countApprovals
  have : ((l₁ ++ c :: l₂).filter fun comment =>
      !((config.ignore.getD []).contains comment.user.login)) =
      ((l₁ ++ l₂).filter fun comment =>
        !((config.ignore.getD []).contains comment.user.login)) := by
    rw [List.filter_append, List.filter_append,
      List.filter_cons_of_neg (by simp [hig])]
  rw [this]

/-! ### Claims C2, C3, C4, C5 -/

/-- Claim C2, counterexample: at `actual = 0`, `needed = 2` the generated
status message is `"This PR needs 2 more approvals (0/2 given)."`, which
is not the string `"needs 2 more approvals (0/2 given)"` asserted by the
claim (the code prefixes `"This PR "` and appends a period). -/
theorem generateStatusMessage_claim_counterexample :
    generateStatusMessage 0 2 = "This PR needs 2 more approvals (0/2 given)." ∧
    generateStatusMessage 0 2 ≠ "needs 2 more approvals (0/2 given)" := by
  constructor
  · decide
  · decide

/-- Claim C2, amended: for `actual < needed` the message is
`"This PR needs {needed-actual} more approvals ({actual}/{needed} given)."`,
otherwise `"This PR has {actual}/{needed} approvals since the last commit."`. -/
theorem generateStatusMessage_spec (actual needed : Int) :
    (actual < needed → generateStatusMessage actual needed =
      "This PR needs " ++ toString (needed - actual) ++ " more approvals (" ++
        toString actual ++ "/" ++ toString needed ++ " given).") ∧
    (needed ≤ actual → generateStatusMessage actual needed =
      "This PR has " ++ toString actual ++ "/" ++ toString needed ++
        " approvals since the last commit.") := by
  constructor
  · intro h
    rw [generateStatusMessage, if_pos h]
  · intro h
    rw [generateStatusMessage, if_neg (not_lt.mpr h)]

/-- Witness for `generateStatusMessage_spec` at `(0, 2)` and `(1, 1)`. -/
theorem generateStatusMessage_spec_witness :
    ((0 : Int) < 2 ∧ generateStatusMessage 0 2 =
      "This PR needs " ++ toString ((2 : Int) - 0) ++ " more approvals (" ++
        toString (0 : Int) ++ "/" ++ toString (2 : Int) ++ " given).") ∧
    ((1 : Int) ≤ 1 ∧ generateStatusMessage 1 1 =
      "This PR has " ++ toString (1 : Int) ++ "/" ++ toString (1 : Int) ++
        " approvals since the last commit.") :=
  ⟨⟨by decide, (generateStatusMessage_spec 0 2).1 (by decide)⟩,
   ⟨by decide, (generateStatusMessage_spec 1 1).2 (by decide)⟩⟩

/-- The double filter of `countApprovals` as a single filter. -/
lemma filter_notIgnored_matching (config : CheckConfig) (test : String → Bool)
    (comments : List Comment) :
    ((comments.filter fun c =>
        !((config.ignore.getD []).contains c.user.login)).filter
          fun c => test c.body.trim) =
      comments.filter fun c =>
        !((config.ignore.getD []).contains c.user.login) && test c.body.trim := by
  rw [List.filter_filter]
  exact List.filter_congr fun c _ => Bool.and_comm _ _

/-- Claim C4: with `config.from` unset, `countApprovals` makes no
external calls at all (in particular no membership-oracle calls) and
returns the number of distinct non-ignored authors whose trimmed body
matches the pattern. -/
theorem countApprovals_from_unset (env : Env) (repository : Repository)
    (comments : List Comment) (config : CheckConfig) (test : String → Bool)
    (hfrom : config.«from» = none)
    (hre : env.newRegExp config.pattern = .ok test) :
    countApprovals env repository comments config =
      ([], .ok (((comments.filter fun c =>
          !((config.ignore.getD []).contains c.user.login) && test c.body.trim).map
          fun c => c.user.login).toFinset.card)) := by
  simp only [countApprovals, filterMatching_ok hre, filter_notIgnored_matching, hfrom]
  by_cases h0 : (dedupByAuthor (comments.filter fun c =>
      !((config.ignore.getD []).contains c.user.login) && test c.body.trim)).length = 0
  · rw [if_pos h0, ← dedupByAuthor_length, h0]
  · rw [if_neg h0, ← dedupByAuthor_length]

/-- A concrete pull request used by witnesses and scenarios. -/
def prFix : PullRequest := ⟨"open", ⟨"shaX"⟩, ⟨"opener"⟩⟩

/-- A concrete repository used by witnesses and scenarios. -/
def repoFix : Repository := ⟨"repo", ⟨"owner"⟩, "owner/repo"⟩

/-- A concrete all-succeeding environment used by witnesses and
scenarios: one `"+1"` comment by `alice`, who is a collaborator.  The
compiled pattern test accepts every trimmed body (in particular the
scenario comment `"+1"`); a constant test keeps concrete evaluation
independent of `String.trim`, which the kernel cannot reduce. -/
def envFix : Env where
  setCommitStatus := fun _ _ _ _ => .ok ()
  onGet := fun _ _ => .ok (some ⟨"2016-01-01"⟩)
  onCreatePullRequest := fun _ _ => .ok ⟨"2016-01-02"⟩
  onAddCommit := fun _ _ => .ok ()
  getComments := fun _ _ _ _ => .ok [⟨⟨"alice"⟩, "+1"⟩]
  getPullRequest := fun _ _ _ => .ok (some prFix)
  isCollaborator := fun _ _ u => .ok (u == "alice")
  isMemberOfOrg := fun _ _ => .ok false
  newRegExp := fun _ => .ok (fun _ => true)
  formatDate := id

/-- A concrete comment list: two distinct matching authors (one of them
twice) and one ignored author. -/
def commentsFix : List Comment :=
  [⟨⟨"alice"⟩, "+1"⟩, ⟨⟨"bob"⟩, " +1 "⟩, ⟨⟨"alice"⟩, "+1"⟩, ⟨⟨"eve"⟩, "+1"⟩]

/-- Witness for `countApprovals_from_unset`: `alice` and `bob` count,
`alice`'s duplicate and ignored `eve` do not. -/
theorem countApprovals_from_unset_witness :
    countApprovals envFix repoFix commentsFix ⟨2, "+1", some ["eve"], none⟩ =
      ([], .ok 2) := by
  rw [countApprovals_from_unset envFix repoFix commentsFix _ (fun _ => true) rfl rfl]
  decide

/-- Claim C3: with `config.from` set and pure membership oracles,
`countApprovals` returns the number of distinct non-ignored
pattern-matching authors passing the membership check `passAuthor`
(literally in `from.users`, or a collaborator when `from.collaborators`,
or member of at least one of `from.orgs`); no author failing all checks
raises an error.  Moreover the per-author check short-circuits: an
author in `from.users` triggers no oracle call, and a collaborator hit
stops before any org query. -/
theorem countApprovals_from_set (env : Env) (repository : Repository)
    (comments : List Comment) (config : CheckConfig) (fromRule : FromConfig)
    (test : String → Bool) (collabF : String → Bool) (orgF : String → String → Bool)
    (hfrom : config.«from» = some fromRule)
    (hre : env.newRegExp config.pattern = .ok test)
    (hc : ∀ u, env.isCollaborator repository.owner.login repository.name u = .ok (collabF u))
    (ho : ∀ o u, env.isMemberOfOrg o u = .ok (orgF o u)) :
    (countApprovals env repository comments config).2 =
      .ok ((((comments.filter fun c =>
          !((config.ignore.getD []).contains c.user.login) && test c.body.trim).map
          fun c => c.user.login).toFinset.filter
            fun u => passAuthor fromRule collabF orgF u = true).card) ∧
    (∀ u, u ∈ fromRule.users.getD [] →
      checkAuthor env repository fromRule u = ([], .ok true)) ∧
    (∀ u, u ∉ fromRule.users.getD [] → fromRule.collaborators = true →
      collabF u = true →
      checkAuthor env repository fromRule u =
        ([Call.isCollaborator repository.owner.login repository.name u], .ok true)) := by
  refine ⟨?_, ?_, ?_⟩
  · simp only [countApprovals, filterMatching_ok hre, filter_notIgnored_matching, hfrom]
    by_cases h0 : (dedupByAuthor (comments.filter fun c =>
        !((config.ignore.getD []).contains c.user.login) && test c.body.trim)).length = 0
    · rw [if_pos h0]
      have hle := Finset.card_filter_le
        (((comments.filter fun c =>
          !((config.ignore.getD []).contains c.user.login) && test c.body.trim).map
          fun c => c.user.login).toFinset)
        (fun u => passAuthor fromRule collabF orgF u = true)
      rw [← dedupByAuthor_length, h0, Nat.le_zero] at hle
      rw [hle]
    · rw [if_neg h0, countMembers_ok hc ho, countP_dedupByAuthor]
  · intro u hu
    unfold checkAuthor
    simp [hu]
  · intro u hu hcol hcf
    unfold checkAuthor
    simp [hu, hcol, hc u, hcf]

/-- Witness for `countApprovals_from_set`: of the distinct matching
authors `alice` and `bob`, only collaborator `alice` passes the
membership check. -/
theorem countApprovals_from_set_witness :
    (countApprovals envFix repoFix commentsFix
      ⟨1, "+1", some ["eve"], some ⟨none, true, none⟩⟩).2 = .ok 1 := by
  have h := (countApprovals_from_set envFix repoFix commentsFix
    ⟨1, "+1", some ["eve"], some ⟨none, true, none⟩⟩ ⟨none, true, none⟩
    (fun _ => true) (fun u => u == "alice") (fun _ _ => false)
    rfl rfl (fun _ => rfl) (fun _ _ => rfl)).1
  rw [h]
  decide

/-- Claim C5: inserting a second copy of a qualifying comment (author
not ignored, trimmed body matching) into a list that already contains it
leaves `countApprovals` unchanged: only the first qualifying comment per
author is kept. -/
theorem countApprovals_duplicate (env : Env) (repository : Repository)
    (config : CheckConfig) (l₁ l₂ l₃ : List Comment) (c : Comment)
    (test : String → Bool)
    (hig : c.user.login ∉ config.ignore.getD [])
    (hre : env.newRegExp config.pattern = .ok test)
    (hm : test c.body.trim = true) :
    countApprovals env repository (l₁ ++ c :: l₂ ++ c :: l₃) config =
      countApprovals env repository (l₁ ++ c :: (l₂ ++ l₃)) config := by
  have hig' : (!((config.ignore.getD []).contains c.user.login)) = true := by
    simp [hig]
  have hd : dedupByAuthor (((l₁ ++ c :: l₂ ++ c :: l₃).filter fun comment =>
        !((config.ignore.getD []).contains comment.user.login)).filter
          fun comment => test comment.body.trim) =
      dedupByAuthor (((l₁ ++ c :: (l₂ ++ l₃)).filter fun comment =>
        !((config.ignore.getD []).contains comment.user.login)).filter
          fun comment => test comment.body.trim) := by
    simp only [List.filter_append, List.filter_cons, hig', hm, if_pos]
    exact dedupByAuthor_duplicate c _ _ _
  simp only [countApprovals, filterMatching_ok hre]
  rw [hd]

/-- Witness for `countApprovals_duplicate`: duplicating `alice`'s
qualifying comment does not change the result. -/
theorem countApprovals_duplicate_witness :
    countApprovals envFix repoFix
      [⟨⟨"bob"⟩, "+1"⟩, ⟨⟨"alice"⟩, "+1"⟩, ⟨⟨"alice"⟩, "+1"⟩, ⟨⟨"eve"⟩, "+1"⟩]
      ⟨2, "+1", some ["eve"], none⟩ =
    countApprovals envFix repoFix
      [⟨⟨"bob"⟩, "+1"⟩, ⟨⟨"alice"⟩, "+1"⟩, ⟨⟨"eve"⟩, "+1"⟩]
      ⟨2, "+1", some ["eve"], none⟩ :=
  countApprovals_duplicate envFix repoFix ⟨2, "+1", some ["eve"], none⟩
    [⟨⟨"bob"⟩, "+1"⟩] [] [⟨⟨"eve"⟩, "+1"⟩] ⟨⟨"alice"⟩, "+1"⟩
    (fun _ => true) (by decide) rfl rfl

/-! ### Error handling of `execute` (claim C1) -/

/-- A recorded call is an error-status report iff it is a
`setCommitStatus` whose payload state is `"error"`. -/
def isErrorReport : Call → Bool
  | .setCommitStatus _ _ _ payload => payload.state == "error"
  | _ => false

lemma withSha_calls {α : Type} (P : Call → Prop) (sha : String) (step : StepResult α)
    (k : α → BodyResult)
    (hstep : ∀ call ∈ step.1, P call)
    (hk : ∀ a, ∀ call ∈ (k a).1, P call) :
    ∀ call ∈ (withSha sha step k).1, P call := by
  rcases step with ⟨calls, r⟩
  cases r with
  | error e => simpa [withSha] using hstep
  | ok a =>
    intro call hcall
    simp only [withSha, List.mem_append] at hcall
    rcases hcall with hcall | hcall
    · exact hstep call hcall
    · exact hk a call hcall

lemma withSha_error {α : Type} (sha : String) (step : StepResult α)
    (k : α → BodyResult) (s : String) (e : Err)
    (h : (withSha sha step k).2 = .error (s, e)) :
    s = sha ∨ ∃ a, step.2 = .ok a ∧ (k a).2 = .error (s, e) := by
  rcases step with ⟨calls, r⟩
  cases r with
  | error e' =>
    simp only [withSha, Except.error.injEq, Prod.mk.injEq] at h
    exact Or.inl h.1.symm
  | ok a =>
    simp only [withSha] at h
    exact Or.inr ⟨a, rfl, h⟩

lemma checkAuthor_calls (env : Env) (repository : Repository)
    (fromRule : FromConfig) (u : String) :
    ∀ call ∈ (checkAuthor env repository fromRule u).1, isErrorReport call = false := by
  intro call hcall
  simp only [checkAuthor] at hcall
  split at hcall
  · simp at hcall
  · split at hcall
    · rename_i calls e heq
      have hcalls : ∀ c ∈ calls, isErrorReport c = false := by
        split at heq <;> injection heq with h1 h2 <;> subst h1 <;> intro c hc
        · simp only [List.mem_singleton] at hc
          subst hc
          rfl
        · simp at hc
      exact hcalls call hcall
    · rename_i calls isCollab heq
      have hcalls : ∀ c ∈ calls, isErrorReport c = false := by
        split at heq <;> injection heq with h1 h2 <;> subst h1 <;> intro c hc
        · simp only [List.mem_singleton] at hc
          subst hc
          rfl
        · simp at hc
      split at hcall
      · exact hcalls call hcall
      · split at hcall
        · exact hcalls call hcall
        · split at hcall <;>
            · simp only [List.mem_append] at hcall
              rcases hcall with h | h
              · exact hcalls call h
              · obtain ⟨o, _, rfl⟩ := List.mem_map.mp h
                rfl

lemma countMembers_calls (env : Env) (repository : Repository) (fromRule : FromConfig) :
    ∀ l : List Comment, ∀ call ∈ (countMembers env repository fromRule l).1,
      isErrorReport call = false := by
  intro l
  induction l with
  | nil =>
    intro call hcall
    simp [countMembers] at hcall
  | cons c rest ih =>
    intro call hcall
    have hcak := checkAuthor_calls env repository fromRule c.user.login
    rcases hch : checkAuthor env repository fromRule c.user.login with ⟨calls, r⟩
    rw [hch] at hcak
    cases r with
    | error e =>
      simp only [countMembers, hch] at hcall
      exact hcak call hcall
    | ok passed =>
      rcases hcm : countMembers env repository fromRule rest with ⟨calls', r'⟩
      rw [hcm] at ih
      cases r' with
      | error e =>
        simp only [countMembers, hch, hcm, List.mem_append] at hcall
        rcases hcall with h | h
        · exact hcak call h
        · exact ih call h
      | ok n =>
        simp only [countMembers, hch, hcm, List.mem_append] at hcall
        rcases hcall with h | h
        · exact hcak call h
        · exact ih call h

lemma countApprovals_calls (env : Env) (repository : Repository)
    (comments : List Comment) (config : CheckConfig) :
    ∀ call ∈ (countApprovals env repository comments config).1,
      isErrorReport call = false := by
  intro call hcall
  simp only [countApprovals] at hcall
  cases hfm : filterMatching env config.pattern
      (comments.filter fun comment =>
        !((config.ignore.getD []).contains comment.user.login)) with
  | error e =>
    rw [hfm] at hcall
    simp at hcall
  | ok matched =>
    rw [hfm] at hcall
    simp only at hcall
    split at hcall
    · simp at hcall
    · split at hcall
      · exact countMembers_calls env repository _ _ call hcall
      · simp at hcall

lemma executeOpenedReopened_calls (env : Env) (config : Config)
    (pull_request : PullRequest) (hookPayload : HookPayload) (dbRepoId : Nat) :
    ∀ call ∈ (executeOpenedReopened env config pull_request hookPayload dbRepoId).1,
      isErrorReport call = false := by
  simp only [executeOpenedReopened]
  refine withSha_calls _ _ _ _ ?_ ?_
  · intro c hc
    simp only [List.mem_singleton] at hc
    subst hc
    rfl
  intro _
  refine withSha_calls _ _ _ _ ?_ ?_
  · intro c hc
    simp only [List.mem_singleton] at hc
    subst hc
    rfl
  intro dbPROpt
  refine withSha_calls _ _ _ _ ?_ ?_
  · intro c hc
    cases dbPROpt with
    | some dbPR => simp at hc
    | none =>
      simp only [List.mem_singleton] at hc
      subst hc
      rfl
  intro dbPR
  by_cases hcond : hookPayload.action = some "opened" ∧ config.approvals.minimum > 0
  · rw [if_pos hcond]
    refine withSha_calls _ _ _ _ ?_ ?_
    · intro c hc
      simp only [List.mem_singleton] at hc
      subst hc
      rfl
    intro _
    intro c hc
    simp [bodyDone] at hc
  · rw [if_neg hcond]
    refine withSha_calls _ _ _ _ ?_ ?_
    · intro c hc
      simp only [List.mem_singleton] at hc
      subst hc
      rfl
    intro comments
    refine withSha_calls _ _ _ _ ?_ ?_
    · exact countApprovals_calls env hookPayload.repository comments _
    intro approvals
    refine withSha_calls _ _ _ _ ?_ ?_
    · intro c hc
      simp only [List.mem_singleton] at hc
      subst hc
      by_cases hlt : (approvals : Int) < config.approvals.minimum
      · simp only [isErrorReport, if_pos hlt]
        rfl
      · simp only [isErrorReport, if_neg hlt]
        rfl
    intro _
    intro c hc
    simp [bodyDone] at hc

lemma executeOpenedReopened_error (env : Env) (config : Config)
    (pull_request : PullRequest) (hookPayload : HookPayload) (dbRepoId : Nat)
    (s : String) (e : Err)
    (h : (executeOpenedReopened env config pull_request hookPayload dbRepoId).2 =
      .error (s, e)) :
    s = pull_request.head.sha := by
  simp only [executeOpenedReopened] at h
  rcases withSha_error _ _ _ _ _ h with rfl | ⟨_, _, h⟩
  · rfl
  rcases withSha_error _ _ _ _ _ h with rfl | ⟨dbPROpt, _, h⟩
  · rfl
  rcases withSha_error _ _ _ _ _ h with rfl | ⟨dbPR, _, h⟩
  · rfl
  by_cases hcond : hookPayload.action = some "opened" ∧ config.approvals.minimum > 0
  · rw [if_pos hcond] at h
    rcases withSha_error _ _ _ _ _ h with rfl | ⟨_, _, h⟩
    · rfl
    · simp [bodyDone] at h
  · rw [if_neg hcond] at h
    rcases withSha_error _ _ _ _ _ h with rfl | ⟨comments, _, h⟩
    · rfl
    rcases withSha_error _ _ _ _ _ h with rfl | ⟨approvals, _, h⟩
    · rfl
    rcases withSha_error _ _ _ _ _ h with rfl | ⟨_, _, h⟩
    · rfl
    · simp [bodyDone] at h

lemma executeSynchronize_calls (env : Env) (config : Config)
    (pull_request : PullRequest) (hookPayload : HookPayload) (dbRepoId : Nat) :
    ∀ call ∈ (executeSynchronize env config pull_request hookPayload dbRepoId).1,
      isErrorReport call = false := by
  simp only [executeSynchronize]
  refine withSha_calls _ _ _ _ ?_ ?_
  · intro c hc
    simp only [List.mem_singleton] at hc
    subst hc
    rfl
  intro _
  refine withSha_calls _ _ _ _ ?_ ?_
  · intro c hc
    simp only [List.mem_singleton] at hc
    subst hc
    rfl
  intro _
  intro c hc
  simp [bodyDone] at hc

lemma executeSynchronize_error (env : Env) (config : Config)
    (pull_request : PullRequest) (hookPayload : HookPayload) (dbRepoId : Nat)
    (s : String) (e : Err)
    (h : (executeSynchronize env config pull_request hookPayload dbRepoId).2 =
      .error (s, e)) :
    s = "" := by
  simp only [executeSynchronize] at h
  rcases withSha_error _ _ _ _ _ h with rfl | ⟨_, _, h⟩
  · rfl
  rcases withSha_error _ _ _ _ _ h with rfl | ⟨_, _, h⟩
  · rfl
  · simp [bodyDone] at h

lemma executeIssueComment_calls (env : Env) (config : Config) (issue : Issue)
    (hookPayload : HookPayload) (dbRepoId : Nat) :
    ∀ call ∈ (executeIssueComment env config issue hookPayload dbRepoId).1,
      isErrorReport call = false := by
  simp only [executeIssueComment]
  refine withSha_calls _ _ _ _ ?_ ?_
  · intro c hc
    simp only [List.mem_singleton] at hc
    subst hc
    rfl
  intro prOpt
  cases prOpt with
  | none =>
    intro c hc
    simp [bodyDone] at hc
  | some pr =>
    dsimp only
    by_cases hstate : pr.state ≠ "open"
    · rw [if_pos hstate]
      intro c hc
      simp [bodyDone] at hc
    · rw [if_neg hstate]
      refine withSha_calls _ _ _ _ ?_ ?_
      · intro c hc
        simp only [List.mem_singleton] at hc
        subst hc
        rfl
      intro _
      refine withSha_calls _ _ _ _ ?_ ?_
      · intro c hc
        simp only [List.mem_singleton] at hc
        subst hc
        rfl
      intro dbPROpt
      refine withSha_calls _ _ _ _ ?_ ?_
      · intro c hc
        cases dbPROpt with
        | some dbPR => simp at hc
        | none =>
          simp only [List.mem_singleton] at hc
          subst hc
          rfl
      intro dbPR
      refine withSha_calls _ _ _ _ ?_ ?_
      · intro c hc
        simp only [List.mem_singleton] at hc
        subst hc
        rfl
      intro comments
      refine withSha_calls _ _ _ _ ?_ ?_
      · exact countApprovals_calls env hookPayload.repository comments _
      intro approvals
      refine withSha_calls _ _ _ _ ?_ ?_
      · intro c hc
        simp only [List.mem_singleton] at hc
        subst hc
        by_cases hlt : (approvals : Int) < config.approvals.minimum
        · simp only [isErrorReport, if_pos hlt]
          rfl
        · simp only [isErrorReport, if_neg hlt]
          rfl
      intro _
      intro c hc
      simp [bodyDone] at hc

lemma executeIssueComment_error (env : Env) (config : Config) (issue : Issue)
    (hookPayload : HookPayload) (dbRepoId : Nat) (s : String) (e : Err)
    (h : (executeIssueComment env config issue hookPayload dbRepoId).2 =
      .error (s, e)) :
    s = "" ∨ ∃ pr,
      env.getPullRequest hookPayload.repository.owner.login
        hookPayload.repository.name issue.number = .ok (some pr) ∧
      pr.state = "open" ∧ s = pr.head.sha := by
  simp only [executeIssueComment] at h
  rcases withSha_error _ _ _ _ _ h with rfl | ⟨prOpt, hpr, h⟩
  · exact Or.inl rfl
  cases prOpt with
  | none => simp [bodyDone] at h
  | some pr =>
    dsimp only at h
    by_cases hstate : pr.state ≠ "open"
    · rw [if_pos hstate] at h
      simp [bodyDone] at h
    · rw [if_neg hstate] at h
      have hopen : pr.state = "open" := not_not.mp hstate
      have hsha : s = pr.head.sha := by
        rcases withSha_error _ _ _ _ _ h with rfl | ⟨_, _, h⟩
        · rfl
        rcases withSha_error _ _ _ _ _ h with rfl | ⟨dbPROpt, _, h⟩
        · rfl
        rcases withSha_error _ _ _ _ _ h with rfl | ⟨dbPR, _, h⟩
        · rfl
        rcases withSha_error _ _ _ _ _ h with rfl | ⟨comments, _, h⟩
        · rfl
        rcases withSha_error _ _ _ _ _ h with rfl | ⟨approvals, _, h⟩
        · rfl
        rcases withSha_error _ _ _ _ _ h with rfl | ⟨_, _, h⟩
        · rfl
        · simp [bodyDone] at h
      exact Or.inr ⟨pr, hpr, hopen, hsha⟩

/-- No call recorded by the `try` body of `execute` is an error-status
report: the body only posts `pending` and `success` statuses. -/
lemma executeBody_calls (env : Env) (config : Config) (hookPayload : HookPayload)
    (dbRepoId : Nat) :
    ∀ call ∈ (executeBody env config hookPayload dbRepoId).1,
      isErrorReport call = false := by
  unfold executeBody
  cases hookPayload.pull_request with
  | some pull_request =>
    dsimp only
    by_cases hopen : pull_request.state = "open"
    · rw [if_pos hopen]
      by_cases hact : hookPayload.action = some "opened" ∨
          hookPayload.action = some "reopened"
      · rw [if_pos hact]
        exact executeOpenedReopened_calls env config pull_request hookPayload dbRepoId
      · rw [if_neg hact]
        by_cases hsync : hookPayload.action = some "synchronize"
        · rw [if_pos hsync]
          exact executeSynchronize_calls env config pull_request hookPayload dbRepoId
        · rw [if_neg hsync]
          intro c hc
          simp [bodyDone] at hc
    · rw [if_neg hopen]
      cases hookPayload.issue with
      | some issue =>
        dsimp only
        exact executeIssueComment_calls env config issue hookPayload dbRepoId
      | none =>
        intro c hc
        simp [bodyDone] at hc
  | none =>
    dsimp only
    cases hookPayload.issue with
    | some issue =>
      dsimp only
      exact executeIssueComment_calls env config issue hookPayload dbRepoId
    | none =>
      intro c hc
      simp [bodyDone] at hc

/-- The claim's notion of "the last commit SHA resolved so far": either no
SHA was resolved (empty string), or the event carried an open pull request
being (re)opened and the SHA is its head SHA, or the event was an issue
comment whose PR lookup succeeded with an open pull request and the SHA is
that PR's head SHA. -/
def shaResolvedSoFar (env : Env) (hookPayload : HookPayload) (s : String) : Prop :=
  s = "" ∨
  (∃ pr, hookPayload.pull_request = some pr ∧ pr.state = "open" ∧
    (hookPayload.action = some "opened" ∨ hookPayload.action = some "reopened") ∧
    s = pr.head.sha) ∨
  (∃ issue pr, hookPayload.issue = some issue ∧
    env.getPullRequest hookPayload.repository.owner.login
      hookPayload.repository.name issue.number = .ok (some pr) ∧
    pr.state = "open" ∧ s = pr.head.sha)

/-- If the `try` body of `execute` throws, the recorded `sha` is one the
claim allows. -/
lemma executeBody_error (env : Env) (config : Config) (hookPayload : HookPayload)
    (dbRepoId : Nat) (s : String) (e : Err)
    (h : (executeBody env config hookPayload dbRepoId).2 = .error (s, e)) :
    shaResolvedSoFar env hookPayload s := by
  unfold executeBody at h
  cases hpr : hookPayload.pull_request with
  | some pull_request =>
    rw [hpr] at h
    dsimp only at h
    by_cases hopen : pull_request.state = "open"
    · rw [if_pos hopen] at h
      by_cases hact : hookPayload.action = some "opened" ∨
          hookPayload.action = some "reopened"
      · rw [if_pos hact] at h
        exact Or.inr (Or.inl ⟨pull_request, hpr, hopen, hact,
          executeOpenedReopened_error env config pull_request hookPayload dbRepoId s e h⟩)
      · rw [if_neg hact] at h
        by_cases hsync : hookPayload.action = some "synchronize"
        · rw [if_pos hsync] at h
          exact Or.inl (executeSynchronize_error env config pull_request hookPayload dbRepoId s e h)
        · rw [if_neg hsync] at h
          simp [bodyDone] at h
    · rw [if_neg hopen] at h
      cases hiss : hookPayload.issue with
      | some issue =>
        rw [hiss] at h
        dsimp only at h
        rcases executeIssueComment_error env config issue hookPayload dbRepoId s e h with
          h0 | ⟨pr, hlook, hopen', hsha⟩
        · exact Or.inl h0
        · exact Or.inr (Or.inr ⟨issue, pr, hiss, hlook, hopen', hsha⟩)
      | none =>
        rw [hiss] at h
        simp [bodyDone] at h
  | none =>
    rw [hpr] at h
    dsimp only at h
    cases hiss : hookPayload.issue with
    | some issue =>
      rw [hiss] at h
      dsimp only at h
      rcases executeIssueComment_error env config issue hookPayload dbRepoId s e h with
        h0 | ⟨pr, hlook, hopen', hsha⟩
      · exact Or.inl h0
      · exact Or.inr (Or.inr ⟨issue, pr, hiss, hlook, hopen', hsha⟩)
    | none =>
      rw [hiss] at h
      simp [bodyDone] at h

/-- Claim C1: whenever any step of the `try` body of `execute` throws an
error, `execute`'s trace is the body's trace followed by exactly one
additional status report, of state `error`, whose description is the
error's message, targeting the last commit SHA resolved so far (the empty
string when none was resolved); no other error-status report occurs. -/
theorem execute_error_handling (env : Env) (config : Config)
    (hookPayload : HookPayload) (dbRepoId : Nat) (calls : List Call)
    (s : String) (e : Err)
    (h : executeBody env config hookPayload dbRepoId = (calls, .error (s, e))) :
    execute env config hookPayload dbRepoId =
      calls ++ [Call.setCommitStatus hookPayload.repository.owner.login
        hookPayload.repository.name s
        { state := "error", description := e.message, context := zapprContext }] ∧
    (execute env config hookPayload dbRepoId).countP isErrorReport = 1 ∧
    shaResolvedSoFar env hookPayload s := by
  have htrace : execute env config hookPayload dbRepoId =
      calls ++ [Call.setCommitStatus hookPayload.repository.owner.login
        hookPayload.repository.name s
        { state := "error", description := e.message, context := zapprContext }] := by
    unfold execute
    rw [h]
  refine ⟨htrace, ?_, ?_⟩
  · rw [htrace, List.countP_append]
    have h0 : calls.countP isErrorReport = 0 := by
      rw [List.countP_eq_zero]
      intro a ha
      have hb := executeBody_calls env config hookPayload dbRepoId a (by rw [h]; exact ha)
      simp [hb]
    have h1 : isErrorReport (Call.setCommitStatus hookPayload.repository.owner.login
        hookPayload.repository.name s
        { state := "error", description := e.message, context := zapprContext }) = true := rfl
    rw [h0, List.countP_cons, List.countP_nil, h1]
    rfl
  · exact executeBody_error env config hookPayload dbRepoId s e (by rw [h])

/-- A concrete config used by witnesses and scenarios: quorum 2, a stored
ignore list that `execute` must discard, no membership restriction. -/
def configFix : Config := ⟨⟨2, "+1", some ["stored"], none⟩⟩

/-- A concrete opened-pull-request hook payload. -/
def hookOpenedFix : HookPayload := ⟨some "opened", repoFix, some prFix, 5, none⟩

/-- Fixture `envFix` with a status reporter that always fails. -/
def envFailFix : Env :=
  { envFix with setCommitStatus := fun _ _ _ _ => .error ⟨"boom"⟩ }

/-- Witness for `execute_error_handling`: the very first status call
fails, so the error status targets the already-resolved head SHA. -/
theorem execute_error_handling_witness :
    execute envFailFix configFix hookOpenedFix 7 =
      [Call.setCommitStatus "owner" "repo" "shaX" pendingPayload,
        Call.setCommitStatus "owner" "repo" "shaX"
          { state := "error", description := "boom", context := "zappr" }] ∧
    (execute envFailFix configFix hookOpenedFix 7).countP isErrorReport = 1 ∧
    shaResolvedSoFar envFailFix hookOpenedFix "shaX" :=
  execute_error_handling envFailFix configFix hookOpenedFix 7
    [Call.setCommitStatus "owner" "repo" "shaX" pendingPayload] "shaX" ⟨"boom"⟩ rfl

/-! ### Claims C6, C7, C8, C9, C10 -/

/-- Claim C6: a freshly opened open pull request with a positive quorum
gets the generic pending placeholder, has its PR record fetched (and
created when absent), then gets a `pending` status with the `0/minimum`
message, and handling stops: no comments are fetched and no approval
count is computed (no further calls appear in the trace). -/
theorem execute_opened_reports_pending (env : Env) (config : Config)
    (hookPayload : HookPayload) (dbRepoId : Nat) (pull_request : PullRequest)
    (dbPROpt : Option DbPR) (dbPRNew : DbPR)
    (hpr : hookPayload.pull_request = some pull_request)
    (hopen : pull_request.state = "open")
    (hact : hookPayload.action = some "opened")
    (hmin : config.approvals.minimum > 0)
    (hset : ∀ u r sh p, env.setCommitStatus u r sh p = .ok ())
    (hget : env.onGet dbRepoId hookPayload.number = .ok dbPROpt)
    (hcreate : env.onCreatePullRequest dbRepoId hookPayload.number = .ok dbPRNew) :
    execute env config hookPayload dbRepoId =
      [Call.setCommitStatus hookPayload.repository.owner.login
          hookPayload.repository.name pull_request.head.sha pendingPayload,
        Call.onGet dbRepoId hookPayload.number] ++
      (match dbPROpt with
        | some _ => []
        | none => [Call.onCreatePullRequest dbRepoId hookPayload.number]) ++
      [Call.setCommitStatus hookPayload.repository.owner.login
          hookPayload.repository.name pull_request.head.sha
        { state := "pending",
          description := generateStatusMessage 0 config.approvals.minimum,
          context := zapprContext }] := by
  have hbody : executeBody env config hookPayload dbRepoId =
      ([Call.setCommitStatus hookPayload.repository.owner.login
          hookPayload.repository.name pull_request.head.sha pendingPayload,
        Call.onGet dbRepoId hookPayload.number] ++
      (match dbPROpt with
        | some _ => []
        | none => [Call.onCreatePullRequest dbRepoId hookPayload.number]) ++
      [Call.setCommitStatus hookPayload.repository.owner.login
          hookPayload.repository.name pull_request.head.sha
        { state := "pending",
          description := generateStatusMessage 0 config.approvals.minimum,
          context := zapprContext }], .ok ()) := by
    unfold executeBody
    rw [hpr]
    dsimp only
    rw [if_pos hopen, if_pos (Or.inl hact)]
    cases dbPROpt with
    | some dbPR =>
      simp only [executeOpenedReopened, withSha, hset, hget, bodyDone,
        if_pos (And.intro hact hmin)]
      simp
    | none =>
      simp only [executeOpenedReopened, withSha, hset, hget, hcreate, bodyDone,
        if_pos (And.intro hact hmin)]
      simp
  unfold execute
  rw [hbody]

/-- Witness for `execute_opened_reports_pending` with an existing PR
record. -/
theorem execute_opened_reports_pending_witness :
    execute envFix configFix hookOpenedFix 7 =
      [Call.setCommitStatus "owner" "repo" "shaX" pendingPayload,
        Call.onGet 7 5,
        Call.setCommitStatus "owner" "repo" "shaX"
          { state := "pending",
            description := "This PR needs 2 more approvals (0/2 given).",
            context := "zappr" }] := by
  have h := execute_opened_reports_pending envFix configFix hookOpenedFix 7
    prFix (some ⟨"2016-01-01"⟩) ⟨"2016-01-02"⟩ rfl rfl rfl (by decide)
    (fun _ _ _ _ => rfl) rfl rfl
  rw [h]
  have hmsg : generateStatusMessage 0 configFix.approvals.minimum =
      "This PR needs 2 more approvals (0/2 given)." := by decide
  rw [hmsg]
  rfl

/-- A recorded call is a status report iff it is a `setCommitStatus`. -/
def isStatusReport : Call → Bool
  | .setCommitStatus _ _ _ _ => true
  | _ => false

/-- Claim C7: on `synchronize` of an open pull request, `execute` first
records the new commit in the PR store (advancing `lastPush`) and then
posts exactly one status report: `pending` with the `0/minimum` message,
independently of any prior approvals (no comments are fetched, no count
is computed). -/
theorem execute_synchronize_resets_pending (env : Env) (config : Config)
    (hookPayload : HookPayload) (dbRepoId : Nat) (pull_request : PullRequest)
    (hpr : hookPayload.pull_request = some pull_request)
    (hopen : pull_request.state = "open")
    (hact : hookPayload.action = some "synchronize")
    (hadd : env.onAddCommit dbRepoId hookPayload.number = .ok ())
    (hset : ∀ u r sh p, env.setCommitStatus u r sh p = .ok ()) :
    execute env config hookPayload dbRepoId =
      [Call.onAddCommit dbRepoId hookPayload.number,
        Call.setCommitStatus hookPayload.repository.owner.login
          hookPayload.repository.name pull_request.head.sha
          { state := "pending",
            description := generateStatusMessage 0 config.approvals.minimum,
            context := zapprContext }] ∧
    (execute env config hookPayload dbRepoId).countP isStatusReport = 1 := by
  have hbody : executeBody env config hookPayload dbRepoId =
      ([Call.onAddCommit dbRepoId hookPayload.number,
        Call.setCommitStatus hookPayload.repository.owner.login
          hookPayload.repository.name pull_request.head.sha
          { state := "pending",
            description := generateStatusMessage 0 config.approvals.minimum,
            context := zapprContext }], .ok ()) := by
    unfold executeBody
    rw [hpr]
    dsimp only
    rw [if_pos hopen,
      if_neg (show ¬(hookPayload.action = some "opened" ∨
        hookPayload.action = some "reopened") by simp [hact]),
      if_pos hact]
    simp only [executeSynchronize, withSha, hadd, hset, bodyDone]
    simp
  have htrace : execute env config hookPayload dbRepoId =
      [Call.onAddCommit dbRepoId hookPayload.number,
        Call.setCommitStatus hookPayload.repository.owner.login
          hookPayload.repository.name pull_request.head.sha
          { state := "pending",
            description := generateStatusMessage 0 config.approvals.minimum,
            context := zapprContext }] := by
    unfold execute
    rw [hbody]
  refine ⟨htrace, ?_⟩
  rw [htrace]
  rfl

/-- Witness for `execute_synchronize_resets_pending`. -/
theorem execute_synchronize_resets_pending_witness :
    execute envFix configFix ⟨some "synchronize", repoFix, some prFix, 5, none⟩ 7 =
      [Call.onAddCommit 7 5,
        Call.setCommitStatus "owner" "repo" "shaX"
          { state := "pending",
            description := "This PR needs 2 more approvals (0/2 given).",
            context := "zappr" }] ∧
    (execute envFix configFix ⟨some "synchronize", repoFix, some prFix, 5, none⟩ 7).countP
      isStatusReport = 1 := by
  have h := execute_synchronize_resets_pending envFix configFix
    ⟨some "synchronize", repoFix, some prFix, 5, none⟩ 7 prFix rfl rfl rfl rfl
    (fun _ _ _ _ => rfl)
  have hmsg : generateStatusMessage 0 configFix.approvals.minimum =
      "This PR needs 2 more approvals (0/2 given)." := by decide
  rw [hmsg] at h
  exact h

/-- Claim C8: an issue-comment event whose issue does not resolve to an
open pull request is a silent no-op: after the PR lookup, no status
report and no PR-record or comment call is made, and no error is raised. -/
theorem execute_comment_non_open_noop (env : Env) (config : Config)
    (hookPayload : HookPayload) (dbRepoId : Nat) (issue : Issue)
    (prOpt : Option PullRequest)
    (hnopr : ∀ pr, hookPayload.pull_request = some pr → pr.state ≠ "open")
    (hiss : hookPayload.issue = some issue)
    (hlook : env.getPullRequest hookPayload.repository.owner.login
      hookPayload.repository.name issue.number = .ok prOpt)
    (hno : ∀ pr, prOpt = some pr → pr.state ≠ "open") :
    execute env config hookPayload dbRepoId =
      [Call.getPullRequest hookPayload.repository.owner.login
        hookPayload.repository.name issue.number] ∧
    (executeBody env config hookPayload dbRepoId).2 = .ok () := by
  have hbody : executeBody env config hookPayload dbRepoId =
      ([Call.getPullRequest hookPayload.repository.owner.login
        hookPayload.repository.name issue.number], .ok ()) := by
    have hic : executeIssueComment env config issue hookPayload dbRepoId =
        ([Call.getPullRequest hookPayload.repository.owner.login
          hookPayload.repository.name issue.number], .ok ()) := by
      simp only [executeIssueComment, withSha, hlook]
      cases prOpt with
      | none => simp [bodyDone]
      | some pr =>
        dsimp only
        rw [if_pos (hno pr rfl)]
        simp [bodyDone]
    unfold executeBody
    cases hpr2 : hookPayload.pull_request with
    | some pr =>
      dsimp only
      rw [if_neg (hnopr pr hpr2), hiss]
      exact hic
    | none =>
      dsimp only
      rw [hiss]
      exact hic
  constructor
  · unfold execute
    rw [hbody]
  · rw [hbody]

/-- Fixture `envFix` whose PR lookup returns a closed pull request. -/
def envClosedPRFix : Env :=
  { envFix with getPullRequest := fun _ _ _ => .ok (some ⟨"closed", ⟨"shaX"⟩, ⟨"opener"⟩⟩) }

/-- Witness for `execute_comment_non_open_noop`: the looked-up pull
request is closed. -/
theorem execute_comment_non_open_noop_witness :
    execute envClosedPRFix
      configFix ⟨some "created", repoFix, none, 0, some ⟨42⟩⟩ 7 =
      [Call.getPullRequest "owner" "repo" 42] ∧
    (executeBody envClosedPRFix
      configFix ⟨some "created", repoFix, none, 0, some ⟨42⟩⟩ 7).2 = .ok () :=
  execute_comment_non_open_noop _ configFix _ 7 ⟨42⟩
    (some ⟨"closed", ⟨"shaX"⟩, ⟨"opener"⟩⟩)
    (fun pr hpr => by simp at hpr) rfl rfl
    (fun pr hpr => by
      injection hpr with hpr
      subst hpr
      decide)

/-- A concrete issue-comment hook payload referring to issue 42. -/
def hookIssueFix : HookPayload := ⟨some "created", repoFix, none, 0, some ⟨42⟩⟩

/-- A concrete config for the collaborator scenario: quorum 1,
`from.collaborators = true`. -/
def configCollabFix : Config := ⟨⟨1, "+1", some ["stored"], some ⟨none, true, none⟩⟩⟩

/-- Fixture `envFix` with the real JavaScript semantics of the
scenario's pattern: `new RegExp("+1")` throws
`SyntaxError: Invalid regular expression: /+1/: Nothing to repeat`,
because a leading `+` quantifier has nothing to repeat (this holds in
the strict regular-expression grammar and in Annex B alike), so the
compile oracle reports that error for every pattern this environment is
asked to compile (only `"+1"` is ever submitted in the scenario). -/
def envJsRegexFix : Env :=
  { envFix with
    newRegExp := fun _ => .error ⟨"Invalid regular expression: /+1/: Nothing to repeat"⟩ }

/-- Claim C9, at the claim's own input: a `"+1"` comment from
collaborator `alice` on an open tracked PR with `pattern="+1"`,
`minimum=1`, `from.collaborators=true`.  Because `new RegExp("+1")`
throws, the pattern filter raises on the first comment instead of
counting it: `countApprovals` returns the SyntaxError, no membership
check runs, and `execute`'s final status report has state `error`
carrying the SyntaxError message — not state `success` with an approval
count of 1 as the claim asserts. -/
theorem execute_plus_one_pattern_error :
    (countApprovals envJsRegexFix repoFix [⟨⟨"alice"⟩, "+1"⟩]
      ⟨1, "+1", some ["opener"], some ⟨none, true, none⟩⟩).2 =
      .error ⟨"Invalid regular expression: /+1/: Nothing to repeat"⟩ ∧
    execute envJsRegexFix configCollabFix hookIssueFix 7 =
      [Call.getPullRequest "owner" "repo" 42,
        Call.setCommitStatus "owner" "repo" "shaX" pendingPayload,
        Call.onGet 7 42,
        Call.getComments "owner" "repo" 42 "2016-01-01",
        Call.setCommitStatus "owner" "repo" "shaX"
          { state := "error",
            description := "Invalid regular expression: /+1/: Nothing to repeat",
            context := "zappr" }] :=
  ⟨rfl, rfl⟩

/-- Claim C10: `execute` never reads the stored `ignore` configuration —
its behaviour is identical for any two stored ignore lists — and the
ignore list it hands to `countApprovals` is exactly the PR opener's
login, so the opener's comments are dropped from the count. -/
theorem execute_discards_configured_ignore (env : Env) (hookPayload : HookPayload)
    (dbRepoId : Nat) (minimum : Int) (pattern : String)
    (ign₁ ign₂ : Option (List String)) (fromRule : Option FromConfig) :
    execute env ⟨⟨minimum, pattern, ign₁, fromRule⟩⟩ hookPayload dbRepoId =
      execute env ⟨⟨minimum, pattern, ign₂, fromRule⟩⟩ hookPayload dbRepoId ∧
    (∀ (repository : Repository) (opener : String) (l₁ l₂ : List Comment) (c : Comment),
      c.user.login = opener →
      countApprovals env repository (l₁ ++ c :: l₂)
          ⟨minimum, pattern, some [opener], fromRule⟩ =
        countApprovals env repository (l₁ ++ l₂)
          ⟨minimum, pattern, some [opener], fromRule⟩) := by
  constructor
  · rfl
  · intro repository opener l₁ l₂ c hc
    exact countApprovals_ignored_comment env repository _ l₁ l₂ c (by simp [hc])

/-- Witness for `execute_discards_configured_ignore`: the stored ignore
list is interchangeable, and a comment by the opener is dropped. -/
theorem execute_discards_configured_ignore_witness :
    (execute envFix ⟨⟨2, "+1", some ["alice"], none⟩⟩ hookOpenedFix 7 =
      execute envFix ⟨⟨2, "+1", none, none⟩⟩ hookOpenedFix 7) ∧
    countApprovals envFix repoFix
        ([] ++ ⟨⟨"opener"⟩, "+1"⟩ :: [⟨⟨"alice"⟩, "+1"⟩])
        ⟨2, "+1", some ["opener"], none⟩ =
      countApprovals envFix repoFix ([] ++ [⟨⟨"alice"⟩, "+1"⟩])
        ⟨2, "+1", some ["opener"], none⟩ := by
  have h := execute_discards_configured_ignore envFix hookOpenedFix 7 2 "+1"
    (some ["alice"]) none none
  exact ⟨h.1, h.2 repoFix "opener" [] [⟨⟨"alice"⟩, "+1"⟩] ⟨⟨"opener"⟩, "+1"⟩ rfl⟩

end Zappr
